import Mathlib

/-!  Verification of the statement parser of kendricksin/kbank_extract
(`src/parser.py`) against its natural-language specification.

Strings are modelled as `List Char` (`Str`).  The character classes `\d` and
`\s` of Python's `re` module, and the whitespace sets of `str.split()` /
`str.strip()` / `float()`, are modelled over their ASCII portions; every
literal appearing in the parser's patterns, keyword tables and statement
format is covered by that portion.  Python `float` is modelled for plain
decimal literals (optional sign, digits, one optional decimal point,
surrounding whitespace) without exponents, underscores, infinities or NaN;
every string that reaches the conversion in this program is a token matching
the monetary-number pattern with its commas removed, which lies inside that
fragment.  Numeric values are rationals, which represent every two-decimal
monetary literal exactly and preserve the sign behaviour of the source's
floats.  Python exceptions that the source catches (`ValueError` from
`strptime`/`float`, `IndexError` from `parts[0]`, `TypeError` from
`-abs(None)`) are modelled as `none` results of the enclosing function, which
is exactly the source's observable behaviour (`return None` from the
`except` block, `reject the line and continue`).
-/

namespace KBank

abbrev Str := List Char

/-- Convenience: the character list of a string literal. -/
def lit (s : String) : Str := s.data

/-- ASCII decimal digit: the reachable portion of Python's regex class `\d`. -/
def isDigitA (c : Char) : Bool := decide (48 ≤ c.toNat ∧ c.toNat ≤ 57)

/-- ASCII whitespace: the reachable portion of Python's `\s` and of the
whitespace sets used by `str.split()`, `str.strip()` and `float()`. -/
def isWS (c : Char) : Bool :=
  decide (c.toNat = 32 ∨ c.toNat = 9 ∨ c.toNat = 10 ∨ c.toNat = 13 ∨ c.toNat = 11 ∨ c.toNat = 12)

/-- Python `str.strip()`. -/
def strip (s : Str) : Str := ((s.dropWhile isWS).reverse.dropWhile isWS).reverse

/-- Step function of `pysplit` (fold from the right over the characters). -/
def pysplitStep (c : Char) (st : List Str × Str) : List Str × Str :=
  if isWS c then (if st.2.isEmpty then st else (st.2 :: st.1, [])) else (st.1, c :: st.2)

/-- Python `str.split()` with no arguments: split on whitespace runs,
dropping empty fields. -/
def pysplit (s : Str) : List Str :=
  let st := s.foldr pysplitStep ([], [])
  if st.2.isEmpty then st.1 else st.2 :: st.1

/-- Python `str.split(maxsplit=1)` with no separator: first whitespace-
delimited token, then the remainder with its leading whitespace removed. -/
def pysplit1 (s : Str) : List Str :=
  let s1 := s.dropWhile isWS
  if s1.isEmpty then []
  else
    let tok := s1.takeWhile (fun c => !(isWS c))
    let rest := (s1.dropWhile (fun c => !(isWS c))).dropWhile isWS
    if rest.isEmpty then [tok] else [tok, rest]

/-- Python `sep.join(...)` for a one-character separator. -/
def joinSep (sep : Char) : List Str → Str
  | [] => []
  | [x] => x
  | x :: y :: r => x ++ sep :: joinSep sep (y :: r)

/-- Step function of `splitNL`. -/
def splitNLStep (c : Char) (acc : List Str) : List Str :=
  if c = '\n' then [] :: acc else (c :: acc.headD []) :: acc.tail

/-- Python `str.split('\n')`. -/
def splitNL (s : Str) : List Str := s.foldr splitNLStep [[]]

/-- Does `s` start with `pre`? -/
def startsWithL : Str → Str → Bool
  | _, [] => true
  | [], _ :: _ => false
  | c :: cs, d :: ds => decide (c = d) && startsWithL cs ds

/-- Python `needle in hay`: contiguous-substring test. -/
def containsSub (hay needle : Str) : Bool :=
  match hay with
  | [] => needle.isEmpty
  | c :: rest => startsWithL (c :: rest) needle || containsSub rest needle

/-- Fuel-driven worker for `splitOnSub`; the initial fuel always suffices. -/
def splitOnSubGo (sep : Str) : Nat → Str → Str → List Str
  | 0, s, acc => [acc.reverse ++ s]
  | fuel + 1, s, acc =>
    match s with
    | [] => [acc.reverse]
    | c :: cs =>
      if !sep.isEmpty && startsWithL (c :: cs) sep then
        acc.reverse :: splitOnSubGo sep fuel ((c :: cs).drop sep.length) []
      else
        splitOnSubGo sep fuel cs (c :: acc)

/-- Python `str.split(sep)` for a non-empty separator string. -/
def splitOnSub (sep s : Str) : List Str := splitOnSubGo sep (s.length + 1) s []

/-- Eight characters of the shape `dd-dd-dd` (the date part of the anchor
pattern `^\d{2}-\d{2}-\d{2}\s+\d{2}:\d{2}`). -/
def dateOK : Str → Bool
  | [d1, d2, h1, d3, d4, h2, d5, d6] =>
    isDigitA d1 && isDigitA d2 && decide (h1 = '-') && isDigitA d3 && isDigitA d4 &&
      decide (h2 = '-') && isDigitA d5 && isDigitA d6
  | _ => false

/-- Five characters of the shape `dd:dd` (the time part of the anchor pattern). -/
def timeOK : Str → Bool
  | [t1, t2, c, t3, t4] =>
    isDigitA t1 && isDigitA t2 && decide (c = ':') && isDigitA t3 && isDigitA t4
  | _ => false

/-- Model of `re.match(r'^(\d{2}-\d{2}-\d{2}\s+\d{2}:\d{2})', line)`: returns
the matched prefix (= group 1) when the anchor pattern matches at the start.
The greedy `\s+` necessarily consumes the maximal whitespace run, because
`\s` and the following `\d` are disjoint. -/
def matchTS (s : Str) : Option Str :=
  if dateOK (s.take 8) && !((s.drop 8).takeWhile isWS).isEmpty &&
      timeOK (((s.drop 8).dropWhile isWS).take 5) then
    some (s.take 8 ++ (s.drop 8).takeWhile isWS ++ ((s.drop 8).dropWhile isWS).take 5)
  else none

/-- Does the line start with the timestamp anchor pattern? -/
def anchored (s : Str) : Bool := (matchTS s).isSome

/-- A parsed calendar date and time, the result of `datetime.strptime`. -/
structure PDateTime where
  year : Nat
  month : Nat
  day : Nat
  hour : Nat
  minute : Nat
deriving DecidableEq, Repr

/-- Numeric value of two ASCII digit characters. -/
def toNat2 (a b : Char) : Nat := (a.toNat - 48) * 10 + (b.toNat - 48)

/-- Python `%y` two-digit-year pivot: 00-68 map to 2000-2068, 69-99 to 1969-1999. -/
def y2k (yy : Nat) : Nat := if yy ≤ 68 then 2000 + yy else 1900 + yy

/-- Gregorian leap-year test, as used by `datetime`. -/
def isLeap (y : Nat) : Bool := decide (y % 4 = 0 ∧ (y % 100 ≠ 0 ∨ y % 400 = 0))

/-- Number of days of month `m` in year `y`. -/
def daysInMonth (m y : Nat) : Nat :=
  if m = 2 then (if isLeap y then 29 else 28)
  else if m = 4 ∨ m = 6 ∨ m = 9 ∨ m = 11 then 30 else 31

/-- Model of `datetime.strptime(s, "%d-%m-%y %H:%M")` on the strings this
program feeds it (the prefix returned by `matchTS`): the whole string must be
consumed, the single format-string space matches a whitespace run, and the
field values must form a valid calendar date and 24-hour time, else
`ValueError` (modelled as `none`). -/
def strptime (s : Str) : Option PDateTime :=
  match s.take 8, (s.drop 8).takeWhile isWS, (s.drop 8).dropWhile isWS with
  | [d1, d2, '-', m1, m2, '-', y1, y2], _ :: _, [h1, h2, ':', n1, n2] =>
    if isDigitA d1 && isDigitA d2 && isDigitA m1 && isDigitA m2 && isDigitA y1 && isDigitA y2
        && isDigitA h1 && isDigitA h2 && isDigitA n1 && isDigitA n2 then
      let dd := toNat2 d1 d2
      let mm := toNat2 m1 m2
      let yy := toNat2 y1 y2
      let hh := toNat2 h1 h2
      let nn := toNat2 n1 n2
      if 1 ≤ mm ∧ mm ≤ 12 ∧ 1 ≤ dd ∧ dd ≤ daysInMonth mm (y2k yy) ∧ hh ≤ 23 ∧ nn ≤ 59 then
        some ⟨y2k yy, mm, dd, hh, nn⟩
      else none
    else none
  | _, _, _ => none

/-- Tail of the monetary-number pattern after the leading digit run:
`(?:,\d{3})*(?:\.\d{2})?$`. -/
def monTail : Str → Bool
  | [] => true
  | c :: r =>
    if c = ',' then
      match r with
      | a :: b :: d :: r2 => isDigitA a && isDigitA b && isDigitA d && monTail r2
      | _ => false
    else if c = '.' then
      match r with
      | [a, b] => isDigitA a && isDigitA b
      | _ => false
    else false

/-- Model of `re.match(r'^\d+(?:,\d{3})*(?:\.\d{2})?$', word)` on the
whitespace-free tokens produced by `str.split()`.  (On such tokens the `$`
case `just before a final newline` cannot arise, so `$` is end-of-token.) -/
def isMonetary (s : Str) : Bool :=
  !(s.takeWhile isDigitA).isEmpty && monTail (s.dropWhile isDigitA)

/-- Python `text.replace(',', '')`. -/
def stripCommas (s : Str) : Str := s.filter (fun c => decide (c ≠ ','))

/-- Value of a string of ASCII digits. -/
def digitsToNat (s : Str) : Nat := s.foldl (fun acc c => acc * 10 + (c.toNat - 48)) 0

/-- Signed decimal value `(-1)^neg * (ipart.fpart)`, built with a single
`mkRat` so that it evaluates by kernel reduction. -/
def decimalVal (neg : Bool) (ipart fpart : Nat) (fdigits : Nat) : ℚ :=
  if neg then -(mkRat (ipart * 10 ^ fdigits + fpart) (10 ^ fdigits))
  else mkRat (ipart * 10 ^ fdigits + fpart) (10 ^ fdigits)

/-- Digit-and-fraction part of the float grammar: `ip` is the integer-part
digit run, `r1` what follows it; an optional `.` with a fractional digit run,
then only trailing whitespace may remain. -/
def pfCore (neg : Bool) (ip r1 : Str) : Option ℚ :=
  match r1 with
  | [] => if !ip.isEmpty then some (decimalVal neg (digitsToNat ip) 0 0) else none
  | c :: r2 =>
    if c = '.' then
      if (!ip.isEmpty || !(r2.takeWhile isDigitA).isEmpty) && (r2.dropWhile isDigitA).all isWS then
        some (decimalVal neg (digitsToNat ip) (digitsToNat (r2.takeWhile isDigitA))
          (r2.takeWhile isDigitA).length)
      else none
    else if !ip.isEmpty && (c :: r2).all isWS then some (decimalVal neg (digitsToNat ip) 0 0)
    else none

/-- Float grammar after the optional sign has been consumed. -/
def pfSigned (neg : Bool) (s2 : Str) : Option ℚ :=
  pfCore neg (s2.takeWhile isDigitA) (s2.dropWhile isDigitA)

/-- Model of Python `float(s)` on plain decimal literals: optional
surrounding whitespace, optional sign, digits with at most one decimal
point, at least one digit.  `none` models `ValueError`. -/
def parseFloat (s : Str) : Option ℚ :=
  if (s.dropWhile isWS).headD ' ' = '-' then pfSigned true ((s.dropWhile isWS).drop 1)
  else if (s.dropWhile isWS).headD ' ' = '+' then pfSigned false ((s.dropWhile isWS).drop 1)
  else pfSigned false (s.dropWhile isWS)

/-- `extract_amount` of the source: strip commas, then convert, `None` on
conversion failure. -/
def extract_amount (text : Str) : Option ℚ := parseFloat (stripCommas text)

/-- The outbound keyword list of `determine_transaction_type`, in source order. -/
def outbound_keywords : List Str :=
  [lit "โอนเงิน", lit "ชำระเงิน", lit "ค่าธรรมเนียม", lit "หักบัญชี"]

/-- The inbound keyword list of `determine_transaction_type`, in source order. -/
def inbound_keywords : List Str :=
  [lit "รับโอนเงิน", lit "รับโอนเงินผ่าน QR"]

/-- First keyword of the list that occurs in `text` (one `for kw in ...` loop
of `determine_transaction_type`). -/
def firstContained (text : Str) : List Str → Option Str
  | [] => none
  | kw :: rest => if containsSub text kw then some kw else firstContained text rest

/-- `determine_transaction_type` of the source: inbound keywords are checked
first, then outbound keywords; the flag is `is_outbound`; default `('', False)`. -/
def determine_transaction_type (text : Str) : Str × Bool :=
  match firstContained text inbound_keywords with
  | some kw => (kw, false)
  | none =>
    match firstContained text outbound_keywords with
    | some kw => (kw, true)
    | none => ([], false)

/-- The two shapes of capture pattern used by `extract_recipient`:
`kw\s+([^\s].*?)(?:\+\+|$)` and `kw\s+([^\s]+)`. -/
inductive PatKind where
  | upToPlusOrEnd
  | refToken
deriving DecidableEq, Repr

/-- Lazy part `.*?(?:\+\+|$)` of the first capture shape: at each point try
the terminator `++` first, then `$` (end, or just before a single final
newline), else extend the capture by one non-newline character (`.` does not
match a newline).  `acc` holds the capture so far, reversed. -/
def lazyCapture : Str → Str → Option Str
  | acc, [] => some acc.reverse
  | acc, c :: cs =>
    if c = '+' ∧ cs.headD ' ' = '+' then some acc.reverse
    else if c = '\n' then (if cs.isEmpty then some acc.reverse else none)
    else lazyCapture (c :: acc) cs

/-- Attempt a capture-pattern body at one position, `s` being the text just
after an occurrence of the anchor keyword: `\s+` must consume a non-empty
(maximal) whitespace run, then group 1 starts with one non-whitespace
character. -/
def tryCapture : PatKind → Str → Option Str
  | .upToPlusOrEnd, s =>
    let ws := s.takeWhile isWS
    let s2 := s.dropWhile isWS
    if ws.isEmpty then none
    else
      match s2 with
      | [] => none
      | c :: cs =>
        match lazyCapture [] cs with
        | some r => some (c :: r)
        | none => none
  | .refToken, s =>
    let ws := s.takeWhile isWS
    let s2 := s.dropWhile isWS
    let tok := s2.takeWhile (fun c => !(isWS c))
    if ws.isEmpty ∨ tok.isEmpty then none else some tok

/-- Model of `re.search` for the anchored-keyword capture patterns: try every
position left to right; at the occurrences of the keyword attempt the rest of
the pattern; on failure keep searching further right. -/
def searchPat (k : PatKind) (kw : Str) : Str → Option Str
  | [] => none
  | s@(_ :: rest) =>
    if startsWithL s kw then
      match tryCapture k (s.drop kw.length) with
      | some r => some r
      | none => searchPat k kw rest
    else searchPat k kw rest

/-- The ordered `(pattern, keyword)` table of `extract_recipient`. -/
def recipientPatterns : List (PatKind × Str) :=
  [(.upToPlusOrEnd, lit "จาก"), (.upToPlusOrEnd, lit "โอนไป"),
   (.refToken, lit "รหัสอ้างอิง"), (.upToPlusOrEnd, lit "เพื่อชำระ")]

/-- The `for pattern, keyword in patterns` loop of `extract_recipient`: when
the keyword occurs, run the search; return group 1 on success; on search
failure the loop continues with the next pair. -/
def recipientGo (text : Str) : List (PatKind × Str) → Str
  | [] => []
  | (k, kw) :: rest =>
    if containsSub text kw then
      match searchPat k kw text with
      | some r => r
      | none => recipientGo text rest
    else recipientGo text rest

/-- `extract_recipient` of the source. -/
def extract_recipient (text : Str) : Str := recipientGo text recipientPatterns

/-- The page-footer marker on which `clean_text_sections` splits the raw text. -/
def footerMarker : Str := lit "KBPDF (FM001-V.6) 01/1A2-0 (05-19)"

/-- The opening-balance marker a section must contain to survive. -/
def openingBalanceMarker : Str := lit "ยอดยกมา"

/-- The inner loop of `clean_text_sections` over one section's physical
lines, carrying the accumulating logical line `current`: blank lines are
skipped; an anchor line closes and emits `current` and starts afresh; other
lines are appended to `current` with a single space (note: also when
`current` is empty, leaving a leading space); at the end a non-empty
`current` is emitted. -/
def processLinesGo : List Str → Str → List Str
  | [], current => if current.isEmpty then [] else [current]
  | l :: rest, current =>
    if (strip l).isEmpty then processLinesGo rest current
    else if anchored (strip l) then
      (if current.isEmpty then [] else [current]) ++ processLinesGo rest (strip l)
    else processLinesGo rest (current ++ ' ' :: strip l)

/-- The logical lines (`cleaned_lines`) the Line Reconstructor emits for one
section. -/
def processSection (sec : Str) : List Str := processLinesGo (splitNL sec) []

/-- `clean_text_sections` of the source: split on the footer marker, keep
sections containing the opening-balance marker, reconstruct each section's
logical lines, and join everything back with newlines. -/
def clean_text_sections (text : Str) : Str :=
  let sections := (splitOnSub footerMarker text).filter
    (fun sec => containsSub sec openingBalanceMarker)
  joinSep '\n' (sections.map (fun sec => joinSep '\n' (processSection sec)))

/-- Worker of `find_last_two_numbers`: the source iterates over `words` from
the last index down to 0, prepending to `numbers` (while fewer than two were
found and the token matches the monetary pattern) or to `non_amount_text`;
here the first argument is the reversed word list, so its head is the word
the source visits first. -/
def fltnGo : List Str → List (Option ℚ) → List Str → List (Option ℚ) × List Str
  | [], nums, content => (nums, content)
  | w :: rest, nums, content =>
    if nums.length < 2 ∧ isMonetary w then fltnGo rest (extract_amount w :: nums) content
    else fltnGo rest nums (w :: content)

/-- `find_last_two_numbers` of the source. -/
def find_last_two_numbers (text : Str) : List (Option ℚ) × Str :=
  ((fltnGo (pysplit text).reverse [] []).1,
    joinSep ' ' (fltnGo (pysplit text).reverse [] []).2)

/-- The durable output record (`Transaction` dataclass of the source).  The
`amount` and `balance` fields hold what the source stores there: the results
of `extract_amount`, which is `Optional[float]` in the source. -/
structure Transaction where
  date : PDateTime
  channel : Str
  details : Str
  transaction_type : Str
  recipient : Str
  amount : Option ℚ
  balance : Option ℚ
  full_text : Str
deriving DecidableEq, Repr

/-- Channel-name normalization block of `parse_transaction_line`. -/
def normalizeChannel (channel details : Str) : Str × Str :=
  if channel = lit "K" ∧ startsWithL details (lit "PLUS") then
    (lit "K PLUS", strip (details.drop 5))
  else if channel = lit "EDC/K" ∧ startsWithL details (lit "SHOP") then
    (lit "EDC/K SHOP", strip (details.drop 5))
  else if channel = lit "MAKE" ∧ startsWithL details (lit "by") then
    (lit "MAKE by KBank", strip (details.drop 8))
  else (channel, details)

/-- Tail of `parse_transaction_line` after channel/details splitting:
classification, recipient extraction, the sign adjustment
`amount = -abs(amount)` for outbound lines, and record construction.  An
outbound line whose amount is `None` raises `TypeError` in the source,
caught by the enclosing `except` (hence `none`); a non-outbound line stores
the amount value unchanged. -/
def assembleT (line : Str) (dt : PDateTime) (balance amt : Option ℚ)
    (channel0 details0 : Str) : Option Transaction :=
  if (determine_transaction_type (normalizeChannel channel0 details0).2).2 then
    amt.map (fun av =>
      ⟨dt, (normalizeChannel channel0 details0).1, (normalizeChannel channel0 details0).2,
        (determine_transaction_type (normalizeChannel channel0 details0).2).1,
        extract_recipient (normalizeChannel channel0 details0).2,
        some (-|av|), balance, strip line⟩)
  else
    some ⟨dt, (normalizeChannel channel0 details0).1, (normalizeChannel channel0 details0).2,
      (determine_transaction_type (normalizeChannel channel0 details0).2).1,
      extract_recipient (normalizeChannel channel0 details0).2,
      amt, balance, strip line⟩

/-- Middle of `parse_transaction_line`: tokenize the post-timestamp text,
reject when fewer than two numbers were found (`numbers[-2]` is the balance,
`numbers[-1]` the amount), and split the content into channel and details
(`parts[0]` on an empty content raises `IndexError`, caught by the enclosing
`except`, hence `none`). -/
def parseAfterTS (line : Str) (dt : PDateTime) (remaining : Str) : Option Transaction :=
  if (find_last_two_numbers remaining).1.length < 2 then none
  else if (pysplit1 (find_last_two_numbers remaining).2).isEmpty then none
  else
    assembleT line dt
      (((find_last_two_numbers remaining).1.drop
        ((find_last_two_numbers remaining).1.length - 2)).headD none)
      (((find_last_two_numbers remaining).1.drop
        ((find_last_two_numbers remaining).1.length - 1)).headD none)
      ((pysplit1 (find_last_two_numbers remaining).2).headD [])
      (((pysplit1 (find_last_two_numbers remaining).2).drop 1).headD [])

/-- `parse_transaction_line` of the source: anchor match, timestamp parse,
then the tokenizing/assembling tail; every caught exception yields `None`. -/
def parse_transaction_line (line : Str) : Option Transaction :=
  match matchTS line with
  | none => none
  | some p =>
    match strptime p with
    | none => none
    | some dt => parseAfterTS line dt (strip (line.drop p.length))

/-- The per-line loop of `parse_bank_statement`: strip, skip blanks, keep
the lines that parse. -/
def parseLines : List Str → List Transaction
  | [] => []
  | l :: rest =>
    let s := strip l
    if s.isEmpty then parseLines rest
    else
      match parse_transaction_line s with
      | some t => t :: parseLines rest
      | none => parseLines rest

/-- `parse_bank_statement` of the source. -/
def parse_bank_statement (text : Str) : List Transaction :=
  parseLines (splitNL (clean_text_sections text))

/-- Number of trailing monetary-number tokens of a logical line: the count of
tokens of the post-timestamp remainder that match the monetary pattern (0
when the line has no timestamp anchor). -/
def trailingMonetaryCount (l : Str) : Nat :=
  match matchTS l with
  | none => 0
  | some p => (pysplit (strip (l.drop p.length))).countP (fun w => isMonetary w)

/-- The input line of the spec's Example 1. -/
def exLine : Str := lit "01-06-23 10:15 K PLUS โอนเงิน จาก ร้านค้า++ 1,000.00 5,000.00"

/-- A details string whose first-listed recipient anchor (`จาก`) occurs but
whose `จาก` capture pattern fails, while the second anchor (`โอนไป`) occurs
and captures. -/
def c2Text : Str := lit "โอนไป Bob++ จาก"

/-- A one-line raw text containing the opening-balance marker and no anchor
line at all. -/
def c3Text : Str := lit "ยอดยกมา"

/-! ### Character-class facts -/

theorem isWS_eq_false_of_isDigitA (c : Char) (h : isDigitA c = true) : isWS c = false := by
  unfold isDigitA at h
  unfold isWS
  simp only [decide_eq_true_eq] at h
  simp only [decide_eq_false_iff_not]
  omega

theorem toNat_ne_of_isDigitA (c : Char) (h : isDigitA c = true) (m : Nat)
    (hm : m < 48 ∨ 57 < m) : c.toNat ≠ m := by
  unfold isDigitA at h
  simp only [decide_eq_true_eq] at h
  omega

theorem ne_char_of_isDigitA (c : Char) (h : isDigitA c = true) (d : Char)
    (hd : d.toNat < 48 ∨ 57 < d.toNat) : c ≠ d := by
  intro hcd
  exact toNat_ne_of_isDigitA c h d.toNat hd (congrArg Char.toNat hcd)

/-! ### takeWhile / dropWhile on appended lists -/

theorem takeWhile_append_stop {p : Char → Bool} :
    ∀ (xs ys zs : Str) (z : Char), xs.dropWhile p = z :: zs →
      (xs ++ ys).takeWhile p = xs.takeWhile p ∧ (xs ++ ys).dropWhile p = z :: (zs ++ ys) := by
  intro xs
  induction xs with
  | nil => intro ys zs z h; simp [List.dropWhile] at h
  | cons x xs ih =>
    intro ys zs z h
    by_cases hp : p x = true
    · rw [List.dropWhile_cons_of_pos hp] at h
      obtain ⟨h1, h2⟩ := ih ys zs z h
      refine ⟨?_, ?_⟩
      · rw [List.cons_append, List.takeWhile_cons_of_pos hp, List.takeWhile_cons_of_pos hp, h1]
      · rw [List.cons_append, List.dropWhile_cons_of_pos hp, h2]
    · rw [List.dropWhile_cons_of_neg hp] at h
      injection h with h1 h2
      subst h1
      subst h2
      refine ⟨?_, ?_⟩
      · rw [List.cons_append, List.takeWhile_cons_of_neg hp, List.takeWhile_cons_of_neg hp]
      · rw [List.cons_append, List.dropWhile_cons_of_neg hp]

theorem takeWhile_append_all {p : Char → Bool} :
    ∀ (xs ys : Str), (∀ c ∈ xs, p c = true) →
      (xs ++ ys).takeWhile p = xs ++ ys.takeWhile p ∧ (xs ++ ys).dropWhile p = ys.dropWhile p := by
  intro xs
  induction xs with
  | nil => intro ys _; simp
  | cons x xs ih =>
    intro ys hall
    have hx : p x = true := hall x (List.mem_cons_self x xs)
    obtain ⟨h1, h2⟩ := ih ys (fun c hc => hall c (List.mem_cons_of_mem x hc))
    refine ⟨?_, ?_⟩
    · rw [List.cons_append, List.takeWhile_cons_of_pos hx, h1, List.cons_append]
    · rw [List.cons_append, List.dropWhile_cons_of_pos hx, h2]

theorem takeWhile_all_eq {p : Char → Bool} (xs : Str) (h : ∀ c ∈ xs, p c = true) :
    xs.takeWhile p = xs ∧ xs.dropWhile p = [] := by
  have := takeWhile_append_all (p := p) xs [] h
  simpa using this

theorem mem_takeWhile_sat {p : Char → Bool} :
    ∀ (xs : Str) (c : Char), c ∈ xs.takeWhile p → p c = true := by
  intro xs
  induction xs with
  | nil => intro c hc; simp [List.takeWhile] at hc
  | cons x xs ih =>
    intro c hc
    by_cases hp : p x = true
    · rw [List.takeWhile_cons_of_pos hp] at hc
      rcases List.mem_cons.mp hc with rfl | hc2
      · exact hp
      · exact ih c hc2
    · rw [List.takeWhile_cons_of_neg hp] at hc
      simp at hc

/-! ### startsWithL and containsSub -/

theorem startsWithL_of_append (s a b : Str) (h : startsWithL s (a ++ b) = true) :
    startsWithL s a = true := by
  induction a generalizing s with
  | nil => cases s <;> rfl
  | cons c a ih =>
    cases s with
    | nil => simp [startsWithL] at h
    | cons d s =>
      simp only [List.cons_append, startsWithL, Bool.and_eq_true] at h ⊢
      exact ⟨h.1, ih s h.2⟩

theorem containsSub_of_append (t a b : Str) (h : containsSub t (a ++ b) = true) :
    containsSub t a = true := by
  induction t with
  | nil =>
    unfold containsSub at h ⊢
    rcases List.append_eq_nil.mp (List.isEmpty_iff.mp h) with ⟨rfl, -⟩
    rfl
  | cons c t ih =>
    simp only [containsSub, Bool.or_eq_true] at h ⊢
    rcases h with h1 | h2
    · exact Or.inl (startsWithL_of_append _ a b h1)
    · exact Or.inr (ih h2)

/-! ### Shape facts for the anchor pattern -/

theorem dateOK_length (l : Str) (h : dateOK l = true) : l.length = 8 := by
  rcases l with - | ⟨a, - | ⟨b, - | ⟨c, - | ⟨d, - | ⟨e, - | ⟨f, - | ⟨g, - | ⟨i, - | ⟨j, r⟩⟩⟩⟩⟩⟩⟩⟩⟩ <;>
    first
      | rfl
      | simp [dateOK] at h

theorem timeOK_length (l : Str) (h : timeOK l = true) : l.length = 5 := by
  rcases l with - | ⟨a, - | ⟨b, - | ⟨c, - | ⟨d, - | ⟨e, - | ⟨f, r⟩⟩⟩⟩⟩⟩ <;>
    first
      | rfl
      | simp [timeOK] at h

/-- Appending text after a matched anchor prefix neither changes that the
anchor matches nor what it matched. -/
theorem matchTS_append (s u p : Str) (h : matchTS s = some p) :
    matchTS (s ++ u) = some p := by
  unfold matchTS at h ⊢
  split at h
  case isFalse => exact absurd h (by simp)
  case isTrue hc =>
    obtain ⟨⟨hdate, hws⟩, htime⟩ :
        (dateOK (s.take 8) = true ∧ (!(((s.drop 8).takeWhile isWS).isEmpty)) = true) ∧
          timeOK (((s.drop 8).dropWhile isWS).take 5) = true := by
      simpa only [Bool.and_eq_true] using hc
    have hlen8 : 8 ≤ s.length := by
      have := dateOK_length _ hdate
      rw [List.length_take] at this
      omega
    have htake : (s ++ u).take 8 = s.take 8 := List.take_append_of_le_length hlen8
    have hdrop : (s ++ u).drop 8 = s.drop 8 ++ u := List.drop_append_of_le_length hlen8
    have hlen5 : 5 ≤ ((s.drop 8).dropWhile isWS).length := by
      have := timeOK_length _ htime
      rw [List.length_take] at this
      omega
    obtain ⟨z, zs, hzzs⟩ : ∃ z zs, (s.drop 8).dropWhile isWS = z :: zs := by
      rcases hd : (s.drop 8).dropWhile isWS with - | ⟨z, zs⟩
      · rw [hd] at hlen5; simp at hlen5
      · exact ⟨z, zs, rfl⟩
    obtain ⟨htw, hdw⟩ := takeWhile_append_stop (p := isWS) (s.drop 8) u zs z hzzs
    have htake5 : ((z :: zs) ++ u).take 5 = (z :: zs).take 5 := by
      apply List.take_append_of_le_length
      rw [← hzzs]; exact hlen5
    rw [htake, hdrop, htw, hdw]
    rw [← List.cons_append, htake5, ← hzzs]
    rw [if_pos hc]
    exact h

/-! ### Facts about the number scan `fltnGo` -/

theorem fltnGo_full : ∀ (rws : List Str) (nums : List (Option ℚ)) (content : List Str),
    ¬ nums.length < 2 → fltnGo rws nums content = (nums, rws.reverse ++ content) := by
  intro rws
  induction rws with
  | nil => intro nums content _; simp [fltnGo]
  | cons w rest ih =>
    intro nums content hlen
    unfold fltnGo
    rw [if_neg (by intro hcon; exact hlen hcon.1)]
    rw [ih nums (w :: content) hlen]
    simp

theorem fltnGo_skip : ∀ (postR : List Str) (l : List Str) (nums : List (Option ℚ))
    (content : List Str), (∀ w ∈ postR, isMonetary w = false) →
    fltnGo (postR ++ l) nums content = fltnGo l nums (postR.reverse ++ content) := by
  intro postR
  induction postR with
  | nil => intro l nums content _; simp
  | cons w rest ih =>
    intro l nums content hall
    have hw : isMonetary w = false := hall w (List.mem_cons_self w rest)
    rw [List.cons_append]
    have step : fltnGo (w :: (rest ++ l)) nums content = fltnGo (rest ++ l) nums (w :: content) := by
      simp only [fltnGo]
      rw [if_neg (by intro hcon; rw [hw] at hcon; exact Bool.false_ne_true hcon.2)]
    rw [step, ih l nums (w :: content) (fun x hx => hall x (List.mem_cons_of_mem w hx))]
    simp

theorem fltnGo_mem : ∀ (rws : List Str) (nums : List (Option ℚ)) (content : List Str)
    (x : Option ℚ), x ∈ (fltnGo rws nums content).1 →
    x ∈ nums ∨ ∃ w, isMonetary w = true ∧ x = extract_amount w := by
  intro rws
  induction rws with
  | nil => intro nums content x hx; exact Or.inl hx
  | cons w rest ih =>
    intro nums content x hx
    unfold fltnGo at hx
    split at hx
    case isTrue hcond =>
      rcases ih _ _ x hx with hmem | hex
      · rcases List.mem_cons.mp hmem with rfl | hmem2
        · exact Or.inr ⟨w, hcond.2, rfl⟩
        · exact Or.inl hmem2
      · exact Or.inr hex
    case isFalse => exact ih _ _ x hx

theorem fltnGo_length : ∀ (rws : List Str) (nums : List (Option ℚ)) (content : List Str),
    nums.length ≤ 2 → (fltnGo rws nums content).1.length =
      min 2 (nums.length + rws.countP (fun w => isMonetary w)) := by
  intro rws
  induction rws with
  | nil => intro nums content h; simp [fltnGo]; omega
  | cons w rest ih =>
    intro nums content h
    unfold fltnGo
    rw [List.countP_cons]
    split
    case isTrue hcond =>
      rw [ih (extract_amount w :: nums) content (by simp; omega)]
      have : (fun w => isMonetary w) w = true := hcond.2
      simp only [this, if_pos]
      simp
      omega
    case isFalse hcond =>
      rw [ih nums (w :: content) h]
      by_cases hm : isMonetary w = true
      · have h2 : ¬ nums.length < 2 := fun hlt => hcond ⟨hlt, hm⟩
        have : (fun w => isMonetary w) w = true := hm
        simp only [this, if_pos]
        omega
      · have : (fun w => isMonetary w) w = false := Bool.eq_false_iff.mpr hm
        simp only [this]
        simp

/-- Decompose a list at the first element satisfying `p`. -/
theorem exists_first_true (p : Str → Bool) : ∀ (l : List Str), 0 < l.countP p →
    ∃ l1 x l2, l = l1 ++ x :: l2 ∧ (∀ y ∈ l1, p y = false) ∧ p x = true := by
  intro l
  induction l with
  | nil => intro h; simp at h
  | cons x l ih =>
    intro h
    by_cases hx : p x = true
    · exact ⟨[], x, l, by simp, by simp, hx⟩
    · rw [List.countP_cons, if_neg (by simpa using hx)] at h
      obtain ⟨l1, y, l2, rfl, h1, h2⟩ := ih (by omega)
      exact ⟨x :: l1, y, l2, by simp,
        fun z hz => by
          rcases List.mem_cons.mp hz with rfl | hz2
          · exact Bool.eq_false_iff.mpr hx
          · exact h1 z hz2,
        h2⟩

theorem headD_drop_mem {α : Type} (l : List α) (k : Nat) (hk : k < l.length) (d : α) :
    (l.drop k).headD d ∈ l := by
  induction l generalizing k with
  | nil => simp at hk
  | cons x l ih =>
    cases k with
    | zero => simp
    | succ k =>
      rw [List.drop_succ_cons]
      exact List.mem_cons_of_mem x (ih k (by simpa using hk))

/-! ### Monetary tokens always convert, to a non-negative value -/

theorem stripCommas_comma (t : Str) : stripCommas (',' :: t) = stripCommas t := by
  simp [stripCommas]

theorem stripCommas_keep (c : Char) (t : Str) (h : c ≠ ',') :
    stripCommas (c :: t) = c :: stripCommas t := by
  simp [stripCommas, h]

theorem stripCommas_digit (c : Char) (t : Str) (h : isDigitA c = true) :
    stripCommas (c :: t) = c :: stripCommas t :=
  stripCommas_keep c t (ne_char_of_isDigitA c h ',' (by decide))

theorem monTail_shape : ∀ (n : Nat) (t : Str), t.length ≤ n → monTail t = true →
    ∃ ds suf, stripCommas t = ds ++ suf ∧ (∀ c ∈ ds, isDigitA c = true) ∧
      (suf = [] ∨ ∃ a b, suf = ['.', a, b] ∧ isDigitA a = true ∧ isDigitA b = true) := by
  intro n
  induction n with
  | zero =>
    intro t ht _
    have h0 : t = [] := List.length_eq_zero.mp (Nat.le_zero.mp ht)
    subst h0
    exact ⟨[], [], by simp [stripCommas], by simp, Or.inl rfl⟩
  | succ n ih =>
    intro t ht hm
    rcases t with - | ⟨c, r⟩
    · exact ⟨[], [], by simp [stripCommas], by simp, Or.inl rfl⟩
    unfold monTail at hm
    by_cases hc : c = ','
    · rw [if_pos hc] at hm
      rcases r with - | ⟨a, - | ⟨b, - | ⟨d, r2⟩⟩⟩
      · simp at hm
      · simp at hm
      · simp at hm
      · simp only [Bool.and_eq_true] at hm
        obtain ⟨⟨⟨ha, hb⟩, hd⟩, hrec⟩ := hm
        obtain ⟨ds, suf, h1, h2, h3⟩ := ih r2 (by simp at ht ⊢; omega) hrec
        subst hc
        refine ⟨a :: b :: d :: ds, suf, ?_, ?_, h3⟩
        · rw [stripCommas_comma, stripCommas_digit a _ ha, stripCommas_digit b _ hb,
            stripCommas_digit d _ hd, h1]
          simp
        · intro x hx
          rcases List.mem_cons.mp hx with rfl | hx
          · exact ha
          rcases List.mem_cons.mp hx with rfl | hx
          · exact hb
          rcases List.mem_cons.mp hx with rfl | hx
          · exact hd
          · exact h2 x hx
    · rw [if_neg hc] at hm
      by_cases hdot : c = '.'
      · rw [if_pos hdot] at hm
        rcases r with - | ⟨a, - | ⟨b, - | ⟨d, r2⟩⟩⟩
        · simp at hm
        · simp at hm
        · simp only [Bool.and_eq_true] at hm
          subst hdot
          refine ⟨[], ['.', a, b], ?_, by simp, Or.inr ⟨a, b, rfl, hm.1, hm.2⟩⟩
          rw [stripCommas_keep '.' _ (by decide), stripCommas_digit a _ hm.1,
            stripCommas_digit b _ hm.2]
          simp [stripCommas]
        · simp at hm
      · rw [if_neg hdot] at hm
        exact absurd hm (by simp)

theorem decimalVal_nonneg (ipart fpart fdigits : Nat) :
    0 ≤ decimalVal false ipart fpart fdigits := by
  unfold decimalVal
  rw [if_neg (by simp)]
  rw [Rat.mkRat_eq_div]
  positivity

/-- Every token matching the monetary pattern converts successfully, to a
non-negative value. -/
theorem extract_amount_monetary (w : Str) (h : isMonetary w = true) :
    ∃ q : ℚ, extract_amount w = some q ∧ 0 ≤ q := by
  unfold isMonetary at h
  simp only [Bool.and_eq_true] at h
  obtain ⟨hne, htl⟩ := h
  obtain ⟨ds, suf, hsc, hds, hsuf⟩ :=
    monTail_shape (w.dropWhile isDigitA).length (w.dropWhile isDigitA) le_rfl htl
  have hwds : ∀ c ∈ w.takeWhile isDigitA, isDigitA c = true := mem_takeWhile_sat w
  have hw : w = w.takeWhile isDigitA ++ w.dropWhile isDigitA :=
    (List.takeWhile_append_dropWhile isDigitA w).symm
  have hscw : stripCommas w = (w.takeWhile isDigitA ++ ds) ++ suf := by
    conv_lhs => rw [hw]
    unfold stripCommas
    rw [List.filter_append]
    have : List.filter (fun c => decide (c ≠ ',')) (w.takeWhile isDigitA)
        = w.takeWhile isDigitA := by
      rw [List.filter_eq_self]
      intro c hc
      simpa using ne_char_of_isDigitA c (hwds c hc) ',' (by decide)
    rw [this]
    show w.takeWhile isDigitA ++ stripCommas (w.dropWhile isDigitA) = _
    rw [hsc, List.append_assoc]
  obtain ⟨dh, dtl, hdh⟩ : ∃ dh dtl, w.takeWhile isDigitA = dh :: dtl := by
    rcases hd : w.takeWhile isDigitA with - | ⟨dh, dtl⟩
    · rw [hd] at hne; simp at hne
    · exact ⟨dh, dtl, rfl⟩
  have hdhdig : isDigitA dh = true := hwds dh (by rw [hdh]; exact List.mem_cons_self dh dtl)
  have halldig : ∀ c ∈ w.takeWhile isDigitA ++ ds, isDigitA c = true := by
    intro c hc
    rcases List.mem_append.mp hc with hc1 | hc2
    · exact hwds c hc1
    · exact hds c hc2
  -- evaluate parseFloat on (digits ++ suf)
  unfold extract_amount parseFloat
  rw [hscw]
  have hdrop1 : ((w.takeWhile isDigitA ++ ds) ++ suf).dropWhile isWS
      = (w.takeWhile isDigitA ++ ds) ++ suf := by
    rw [hdh, List.cons_append, List.cons_append]
    exact List.dropWhile_cons_of_neg (by rw [isWS_eq_false_of_isDigitA dh hdhdig]; simp)
  rw [hdrop1]
  have hhead : (((w.takeWhile isDigitA ++ ds) ++ suf).headD ' ') = dh := by
    rw [hdh]; simp
  rw [hhead]
  have hne1 : dh ≠ '-' := ne_char_of_isDigitA dh hdhdig '-' (by decide)
  have hne2 : dh ≠ '+' := ne_char_of_isDigitA dh hdhdig '+' (by decide)
  rw [if_neg hne1, if_neg hne2]
  unfold pfSigned
  obtain ⟨htw, hdw⟩ := takeWhile_append_all (p := isDigitA) (w.takeWhile isDigitA ++ ds) suf halldig
  rw [htw, hdw]
  have hipne : ((w.takeWhile isDigitA ++ ds) ++ suf.takeWhile isDigitA).isEmpty = false := by
    rw [hdh]; simp
  rcases hsuf with rfl | ⟨a, b, rfl, hdiga, hdigb⟩
  · simp only [List.takeWhile_nil, List.dropWhile_nil]
    simp only [pfCore]
    rw [if_pos (by simp only [List.takeWhile_nil] at hipne; rw [hipne]; simp)]
    exact ⟨_, rfl, decimalVal_nonneg _ _ _⟩
  · have hdigab : ∀ c ∈ [a, b], isDigitA c = true := by
      intro c hc
      rcases List.mem_cons.mp hc with rfl | hc
      · exact hdiga
      rcases List.mem_cons.mp hc with rfl | hc
      · exact hdigb
      · simp at hc
    have htwsuf : List.takeWhile isDigitA ['.', a, b] = [] :=
      List.takeWhile_cons_of_neg (by simp [isDigitA])
    have hdwsuf : List.dropWhile isDigitA ['.', a, b] = ['.', a, b] :=
      List.dropWhile_cons_of_neg (by simp [isDigitA])
    rw [htwsuf, hdwsuf]
    simp only [pfCore]
    rw [if_pos trivial]
    have htwab : List.takeWhile isDigitA [a, b] = [a, b] := (takeWhile_all_eq [a, b] hdigab).1
    have hdwab : List.dropWhile isDigitA [a, b] = [] := (takeWhile_all_eq [a, b] hdigab).2
    rw [htwab, hdwab]
    rw [if_pos (by rw [htwsuf] at hipne; rw [hipne]; simp)]
    exact ⟨_, rfl, decimalVal_nonneg _ _ _⟩

/-- Every value the number scan captures is `some` non-negative rational. -/
theorem mem_fltn_nonneg (remaining : Str) (x : Option ℚ)
    (hx : x ∈ (find_last_two_numbers remaining).1) : ∃ q : ℚ, x = some q ∧ 0 ≤ q := by
  unfold find_last_two_numbers at hx
  rcases fltnGo_mem _ _ _ x hx with hmem | ⟨w, hw, rfl⟩
  · simp at hmem
  · exact extract_amount_monetary w hw

/-! ### Inversion of the record assembly -/

theorem assembleT_fields (line : Str) (dt : PDateTime) (balance amt : Option ℚ)
    (channel0 details0 : Str) (t : Transaction)
    (h : assembleT line dt balance amt channel0 details0 = some t) :
    t.balance = balance ∧
      ((determine_transaction_type t.details).2 = true →
        ∃ av, amt = some av ∧ t.amount = some (-|av|)) ∧
      ((determine_transaction_type t.details).2 = false → t.amount = amt) := by
  unfold assembleT at h
  split at h
  case isTrue htd =>
    obtain ⟨av, hav, hft⟩ := Option.map_eq_some'.mp h
    subst hft
    refine ⟨rfl, fun _ => ⟨av, hav, rfl⟩, fun hfalse => ?_⟩
    rw [show (Transaction.mk dt (normalizeChannel channel0 details0).1
      (normalizeChannel channel0 details0).2
      (determine_transaction_type (normalizeChannel channel0 details0).2).1
      (extract_recipient (normalizeChannel channel0 details0).2)
      (some (-|av|)) balance (strip line)).details
      = (normalizeChannel channel0 details0).2 from rfl] at hfalse
    rw [htd] at hfalse
    exact absurd hfalse (by simp)
  case isFalse htd =>
    have ht : t = ⟨dt, (normalizeChannel channel0 details0).1,
        (normalizeChannel channel0 details0).2,
        (determine_transaction_type (normalizeChannel channel0 details0).2).1,
        extract_recipient (normalizeChannel channel0 details0).2,
        amt, balance, strip line⟩ := (Option.some.injEq .. ▸ h).symm
    subst ht
    refine ⟨rfl, fun htrue => ?_, fun _ => rfl⟩
    rw [show (Transaction.mk dt (normalizeChannel channel0 details0).1
      (normalizeChannel channel0 details0).2
      (determine_transaction_type (normalizeChannel channel0 details0).2).1
      (extract_recipient (normalizeChannel channel0 details0).2)
      amt balance (strip line)).details
      = (normalizeChannel channel0 details0).2 from rfl] at htrue
    exact absurd htrue (by simpa using htd)

theorem parseAfterTS_fields (line : Str) (dt : PDateTime) (remaining : Str) (t : Transaction)
    (h : parseAfterTS line dt remaining = some t) :
    ∃ qa qb : ℚ, t.amount = some qa ∧ t.balance = some qb ∧ 0 ≤ qb ∧
      ((determine_transaction_type t.details).2 = true → qa ≤ 0) ∧
      ((determine_transaction_type t.details).2 = false → 0 ≤ qa) := by
  unfold parseAfterTS at h
  split at h
  · exact absurd h (by simp)
  case isFalse hlen =>
    split at h
    · exact absurd h (by simp)
    case isFalse hparts =>
      have hlen2 : 2 ≤ (find_last_two_numbers remaining).1.length := by omega
      obtain ⟨qb, hqb, hqb0⟩ := mem_fltn_nonneg remaining _
        (headD_drop_mem _ ((find_last_two_numbers remaining).1.length - 2) (by omega) none)
      obtain ⟨qa0, hqa, hqa0⟩ := mem_fltn_nonneg remaining _
        (headD_drop_mem _ ((find_last_two_numbers remaining).1.length - 1) (by omega) none)
      obtain ⟨hbal, htrue, hfalse⟩ := assembleT_fields _ _ _ _ _ _ _ h
      by_cases htd : (determine_transaction_type t.details).2 = true
      · obtain ⟨av, hav, ham⟩ := htrue htd
        refine ⟨-|av|, qb, ham, by rw [hbal, hqb], hqb0, fun _ => ?_, fun hcon => ?_⟩
        · exact neg_nonpos.mpr (abs_nonneg av)
        · rw [htd] at hcon; exact absurd hcon (by simp)
      · have htd2 : (determine_transaction_type t.details).2 = false := by
          simpa using htd
        have ham := hfalse htd2
        refine ⟨qa0, qb, by rw [ham, hqa], by rw [hbal, hqb], hqb0, fun hcon => ?_, fun _ => hqa0⟩
        rw [htd2] at hcon
        exact absurd hcon (by simp)

theorem parse_fields (s : Str) (t : Transaction) (h : parse_transaction_line s = some t) :
    ∃ qa qb : ℚ, t.amount = some qa ∧ t.balance = some qb ∧ 0 ≤ qb ∧
      ((determine_transaction_type t.details).2 = true → qa ≤ 0) ∧
      ((determine_transaction_type t.details).2 = false → 0 ≤ qa) := by
  unfold parse_transaction_line at h
  split at h
  next => exact absurd h (by simp)
  next p hm =>
    split at h
    next => exact absurd h (by simp)
    next dt hst => exact parseAfterTS_fields _ _ _ _ h

/-! ### The per-line loop -/

theorem mem_parseLines : ∀ (ls : List Str) (t : Transaction), t ∈ parseLines ls →
    ∃ l, l ∈ ls ∧ parse_transaction_line (strip l) = some t := by
  intro ls
  induction ls with
  | nil => intro t ht; simp [parseLines] at ht
  | cons l rest ih =>
    intro t ht
    simp only [parseLines] at ht
    split at ht
    · obtain ⟨l2, hl2, hp⟩ := ih t ht
      exact ⟨l2, List.mem_cons_of_mem l hl2, hp⟩
    · split at ht
      case h_1 t2 hp =>
        rcases List.mem_cons.mp ht with rfl | hmem
        · exact ⟨l, List.mem_cons_self l rest, hp⟩
        · obtain ⟨l2, hl2, hp2⟩ := ih t hmem
          exact ⟨l2, List.mem_cons_of_mem l hl2, hp2⟩
      case h_2 hp =>
        obtain ⟨l2, hl2, hp2⟩ := ih t ht
        exact ⟨l2, List.mem_cons_of_mem l hl2, hp2⟩

theorem parseLines_append : ∀ (xs ys : List Str),
    parseLines (xs ++ ys) = parseLines xs ++ parseLines ys := by
  intro xs
  induction xs with
  | nil => intro ys; simp [parseLines]
  | cons l rest ih =>
    intro ys
    rw [List.cons_append]
    simp only [parseLines]
    split
    · exact ih ys
    · split
      · rw [ih ys, List.cons_append]
      · exact ih ys

/-! ### Line-reconstructor invariants -/

theorem anchored_append (s u : Str) (h : anchored s = true) : anchored (s ++ u) = true := by
  unfold anchored at h ⊢
  obtain ⟨p, hp⟩ := Option.isSome_iff_exists.mp h
  rw [matchTS_append s u p hp]
  rfl

theorem processLinesGo_anchored : ∀ (lines : List Str) (cur : Str),
    (anchored cur = true → ∀ l ∈ processLinesGo lines cur, anchored l = true) ∧
      (∀ l ∈ (processLinesGo lines cur).drop 1, anchored l = true) := by
  intro lines
  induction lines with
  | nil =>
    intro cur
    constructor
    · intro hcur l hl
      unfold processLinesGo at hl
      split at hl
      · simp at hl
      · rw [List.mem_singleton.mp hl]; exact hcur
    · intro l hl
      unfold processLinesGo at hl
      split at hl <;> simp at hl
  | cons x rest ih =>
    intro cur
    constructor
    · intro hcur l hl
      unfold processLinesGo at hl
      split at hl
      · exact (ih cur).1 hcur l hl
      · split at hl
        case isTrue hanch =>
          rcases List.mem_append.mp hl with h1 | h2
          · split at h1
            · simp at h1
            · rw [List.mem_singleton.mp h1]; exact hcur
          · exact (ih (strip x)).1 hanch l h2
        case isFalse =>
          exact (ih _).1 (anchored_append cur _ hcur) l hl
    · intro l hl
      unfold processLinesGo at hl
      split at hl
      · exact (ih cur).2 l hl
      · split at hl
        case isTrue hanch =>
          by_cases hce : cur.isEmpty = true
          · rw [if_pos hce, List.nil_append] at hl
            exact (ih (strip x)).1 hanch l (List.mem_of_mem_drop hl)
          · rw [if_neg hce, List.singleton_append, List.drop_succ_cons, List.drop_zero] at hl
            exact (ih (strip x)).1 hanch l hl
        case isFalse =>
          exact (ih _).2 l hl

theorem processLinesGo_no_anchor : ∀ (lines : List Str) (cur : Str),
    (∀ l ∈ lines, anchored (strip l) = false) →
    (cur.isEmpty = false ∨ ∃ l, l ∈ lines ∧ (strip l).isEmpty = false) →
    (processLinesGo lines cur).length = 1 := by
  intro lines
  induction lines with
  | nil =>
    intro cur _ hne
    rcases hne with hne | ⟨l, hl, -⟩
    · unfold processLinesGo
      rw [if_neg (by rw [hne]; simp)]
      rfl
    · simp at hl
  | cons x rest ih =>
    intro cur hall hne
    have hx : anchored (strip x) = false := hall x (List.mem_cons_self x rest)
    have hall2 : ∀ l ∈ rest, anchored (strip l) = false :=
      fun l hl => hall l (List.mem_cons_of_mem x hl)
    unfold processLinesGo
    by_cases hxe : (strip x).isEmpty = true
    · rw [if_pos hxe]
      apply ih cur hall2
      rcases hne with hne | ⟨l, hl, hlne⟩
      · exact Or.inl hne
      · rcases List.mem_cons.mp hl with rfl | hl2
        · rw [hxe] at hlne; exact absurd hlne (by simp)
        · exact Or.inr ⟨l, hl2, hlne⟩
    · rw [if_neg hxe, if_neg (by rw [hx]; simp)]
      apply ih (cur ++ ' ' :: strip x) hall2
      left
      rcases hc : cur with - | ⟨c0, cur'⟩ <;> simp

/-! ### Number-scan characterization and counting -/

theorem fltn_length_count (remaining : Str) :
    (find_last_two_numbers remaining).1.length =
      min 2 ((pysplit remaining).countP (fun w => isMonetary w)) := by
  unfold find_last_two_numbers
  show (fltnGo (pysplit remaining).reverse [] []).1.length = _
  rw [fltnGo_length _ [] [] (by simp)]
  rw [List.countP_reverse]
  simp

theorem countP_eq_zero_of_all_false {p : Str → Bool} (l : List Str)
    (h : ∀ y ∈ l, p y = false) : l.countP p = 0 := by
  induction l with
  | nil => rfl
  | cons x l ih =>
    rw [List.countP_cons, ih (fun y hy => h y (List.mem_cons_of_mem x hy))]
    rw [h x (List.mem_cons_self x l)]
    rfl

theorem c4_characterization : ∀ (text : Str),
    2 ≤ (pysplit text).countP (fun w => isMonetary w) →
    ∃ pre mid post a b, pysplit text = pre ++ [a] ++ mid ++ [b] ++ post ∧
      isMonetary a = true ∧ isMonetary b = true ∧
      (∀ w ∈ mid, isMonetary w = false) ∧ (∀ w ∈ post, isMonetary w = false) ∧
      find_last_two_numbers text =
        ([extract_amount a, extract_amount b], joinSep ' ' (pre ++ mid ++ post)) := by
  intro text hcount
  have hcr : 0 < ((pysplit text).reverse).countP (fun w => isMonetary w) := by
    rw [List.countP_reverse]; omega
  obtain ⟨postR, b, rest1, hdec1, hpostR, hb⟩ :=
    exists_first_true (fun w => isMonetary w) _ hcr
  have hcount1 : 0 < rest1.countP (fun w => isMonetary w) := by
    have h2 : ((pysplit text).reverse).countP (fun w => isMonetary w)
        = rest1.countP (fun w => isMonetary w) + 1 := by
      rw [hdec1, List.countP_append, List.countP_cons,
        countP_eq_zero_of_all_false postR hpostR, hb]
      simp
    rw [List.countP_reverse] at h2
    omega
  obtain ⟨midR, a, preR, hdec2, hmidR, ha⟩ :=
    exists_first_true (fun w => isMonetary w) rest1 hcount1
  have hE : fltnGo ((pysplit text).reverse) [] []
      = ([extract_amount a, extract_amount b],
          preR.reverse ++ (midR.reverse ++ (postR.reverse ++ []))) := by
    rw [hdec1, hdec2]
    rw [fltnGo_skip postR _ [] [] hpostR]
    have step2 : fltnGo (b :: (midR ++ a :: preR)) [] (postR.reverse ++ [])
        = fltnGo (midR ++ a :: preR) [extract_amount b] (postR.reverse ++ []) := by
      simp only [fltnGo]
      rw [if_pos ⟨by simp, hb⟩]
    rw [step2]
    rw [fltnGo_skip midR _ [extract_amount b] (postR.reverse ++ []) hmidR]
    have step4 : fltnGo (a :: preR) [extract_amount b] (midR.reverse ++ (postR.reverse ++ []))
        = fltnGo preR [extract_amount a, extract_amount b]
            (midR.reverse ++ (postR.reverse ++ [])) := by
      simp only [fltnGo]
      rw [if_pos ⟨by simp, ha⟩]
    rw [step4]
    rw [fltnGo_full preR _ _ (by simp)]
  refine ⟨preR.reverse, midR.reverse, postR.reverse, a, b, ?_, ha, hb, ?_, ?_, ?_⟩
  · rw [← List.reverse_reverse (pysplit text), hdec1, hdec2]
    simp [List.reverse_append, List.reverse_cons, List.append_assoc]
  · intro w hw
    exact hmidR w (List.mem_reverse.mp hw)
  · intro w hw
    exact hpostR w (List.mem_reverse.mp hw)
  · unfold find_last_two_numbers
    rw [hE]
    simp [List.append_assoc]

/-! ### Keyword classification facts -/

theorem firstContained_mem : ∀ (text : Str) (l : List Str) (kw : Str),
    firstContained text l = some kw → kw ∈ l ∧ containsSub text kw = true := by
  intro text l
  induction l with
  | nil => intro kw h; simp [firstContained] at h
  | cons x l ih =>
    intro kw h
    unfold firstContained at h
    split at h
    case isTrue hc =>
      injection h with hx
      subst hx
      exact ⟨List.mem_cons_self _ _, hc⟩
    case isFalse =>
      obtain ⟨hmem, hc⟩ := ih kw h
      exact ⟨List.mem_cons_of_mem x hmem, hc⟩

theorem recipientGo_first_success : ∀ (text : Str) (ps1 : List (PatKind × Str)) (k : PatKind)
    (kw r : Str) (ps2 : List (PatKind × Str)),
    (∀ p ∈ ps1, containsSub text p.2 = true → searchPat p.1 p.2 text = none) →
    containsSub text kw = true → searchPat k kw text = some r →
    recipientGo text (ps1 ++ (k, kw) :: ps2) = r := by
  intro text ps1
  induction ps1 with
  | nil =>
    intro k kw r ps2 _ hc hs
    rw [List.nil_append]
    unfold recipientGo
    rw [if_pos hc, hs]
  | cons p ps1 ih =>
    intro k kw r ps2 hfail hc hs
    obtain ⟨pk, pkw⟩ := p
    rw [List.cons_append]
    unfold recipientGo
    by_cases hc2 : containsSub text pkw = true
    · rw [if_pos hc2, hfail (pk, pkw) (List.mem_cons_self _ _) hc2]
      exact ih k kw r ps2
        (fun q hq hcq => hfail q (List.mem_cons_of_mem _ hq) hcq) hc hs
    · rw [if_neg hc2]
      exact ih k kw r ps2
        (fun q hq hcq => hfail q (List.mem_cons_of_mem _ hq) hcq) hc hs

/-! ## The claims -/

/-- Claim C1, counterexample: on the spec's Example 1 line the parser
produces the Transaction with amount `-5000.00` and balance `1000.00`
(the source assigns `balance = numbers[-2]`, `amount = numbers[-1]`), so no
Transaction with amount `-1000.00` and balance `5000.00` is produced. -/
theorem c1_counterexample :
    parse_transaction_line exLine =
      some ⟨⟨2023, 6, 1, 10, 15⟩, lit "K PLUS", lit "โอนเงิน จาก ร้านค้า++", lit "โอนเงิน",
        lit "ร้านค้า", some (-5000), some 1000, exLine⟩ ∧
    ¬ ∃ t : Transaction, parse_transaction_line exLine = some t ∧
        t.amount = some (-1000) ∧ t.balance = some 5000 := by
  have hp : parse_transaction_line exLine =
      some ⟨⟨2023, 6, 1, 10, 15⟩, lit "K PLUS", lit "โอนเงิน จาก ร้านค้า++", lit "โอนเงิน",
        lit "ร้านค้า", some (-5000), some 1000, exLine⟩ := by decide
  refine ⟨hp, ?_⟩
  rintro ⟨t, hp2, ham, hbal⟩
  rw [hp] at hp2
  injection hp2 with ht
  subst ht
  exact absurd ham (by decide)

/-- Claim C1, amended: parsing the reconstructed line of Example 1 yields
exactly one Transaction, with channel `K PLUS`, transaction type `โอนเงิน`,
outbound direction (hence negative amount), amount `-5000.00`, balance
`1000.00`, recipient `ร้านค้า`. -/
theorem c1_amended :
    parse_transaction_line exLine =
      some ⟨⟨2023, 6, 1, 10, 15⟩, lit "K PLUS", lit "โอนเงิน จาก ร้านค้า++", lit "โอนเงิน",
        lit "ร้านค้า", some (-5000), some 1000, exLine⟩ ∧
    determine_transaction_type (lit "โอนเงิน จาก ร้านค้า++") = (lit "โอนเงิน", true) := by
  decide

/-- Claim C2, counterexample: in `c2Text` the first listed anchor keyword
`จาก` occurs but its capture pattern finds no match; the loop then falls
through to the second pair (`โอนไป`), whose capture succeeds, and the result
is `Bob`, not the empty string. -/
theorem c2_counterexample :
    recipientPatterns.headD (PatKind.refToken, []) = (PatKind.upToPlusOrEnd, lit "จาก") ∧
    containsSub c2Text (lit "จาก") = true ∧
    searchPat PatKind.upToPlusOrEnd (lit "จาก") c2Text = none ∧
    extract_recipient c2Text = lit "Bob" ∧
    lit "Bob" ≠ ([] : Str) := by
  refine ⟨by decide, by decide, by decide, by decide, ?_⟩
  intro h
  exact absurd h (by decide)

/-- Claim C2, amended: the pairs are tried in source order and the result is
the capture of the first pair whose anchor keyword occurs in the details
string and whose pattern matches; a pair whose anchor occurs but whose
pattern fails to match is skipped and the later pairs are attempted. -/
theorem c2_first_success (text : Str) (ps1 : List (PatKind × Str)) (k : PatKind)
    (kw r : Str) (ps2 : List (PatKind × Str))
    (hdec : recipientPatterns = ps1 ++ (k, kw) :: ps2)
    (hfail : ∀ p ∈ ps1, containsSub text p.2 = true → searchPat p.1 p.2 text = none)
    (hc : containsSub text kw = true) (hs : searchPat k kw text = some r) :
    extract_recipient text = r := by
  unfold extract_recipient
  rw [hdec]
  exact recipientGo_first_success text ps1 k kw r ps2 hfail hc hs

/-- Claim C2, witness: the amended claim applied to `c2Text` at the second
table entry, the first entry having a present anchor but a failing pattern. -/
theorem c2_first_success_witness : extract_recipient c2Text = lit "Bob" :=
  c2_first_success c2Text [(PatKind.upToPlusOrEnd, lit "จาก")] PatKind.upToPlusOrEnd
    (lit "โอนไป") (lit "Bob")
    [(PatKind.refToken, lit "รหัสอ้างอิง"), (PatKind.upToPlusOrEnd, lit "เพื่อชำระ")]
    (by decide) (by decide) (by decide) (by decide)

/-- Claim C3, counterexample: the one-line text `ยอดยกมา` is a surviving
section (it contains the opening-balance marker) with no anchor line at all,
yet the reconstructor emits one LogicalLine, ` ยอดยกมา`, which does not begin
with a timestamp. -/
theorem c3_counterexample :
    containsSub c3Text openingBalanceMarker = true ∧
    splitOnSub footerMarker c3Text = [c3Text] ∧
    (splitNL c3Text).all (fun l => !(anchored (strip l))) = true ∧
    processSection c3Text = [lit " ยอดยกมา"] ∧
    anchored (lit " ยอดยกมา") = false ∧
    clean_text_sections c3Text = lit " ยอดยกมา" := by
  decide

/-- Claim C3, amended: every LogicalLine the reconstructor emits for a
section except possibly the first begins with a timestamp anchor, and a
surviving section with no anchor lines but at least one non-blank line
contributes exactly one LogicalLine (the accumulated pre-anchor content),
not zero. -/
theorem c3_amended (sec : Str) :
    (∀ l ∈ (processSection sec).drop 1, anchored l = true) ∧
    ((∀ l ∈ splitNL sec, anchored (strip l) = false) →
      (∃ l, l ∈ splitNL sec ∧ (strip l).isEmpty = false) →
      (processSection sec).length = 1) := by
  constructor
  · exact (processLinesGo_anchored (splitNL sec) []).2
  · intro hall hne
    exact processLinesGo_no_anchor (splitNL sec) [] hall (Or.inr hne)

/-- Claim C3, witness: the amended claim applied to the anchorless section
`ยอดยกมา`, which contributes exactly one LogicalLine. -/
theorem c3_amended_witness : (processSection c3Text).length = 1 :=
  (c3_amended c3Text).2 (by decide) ⟨c3Text, by decide, by decide⟩

/-- Claim C4: when the token list holds at least two monetary tokens, the
scan from the end captures the last two of them — in original order the
earlier (`a`, the source's `numbers[-2]`, its balance) then the later (`b`,
`numbers[-1]`, its amount) — and every other token, including monetary
tokens left of the captured pair, is reassembled space-joined in original
order into the content string. -/
theorem c4_characterization_claim (text : Str)
    (h : 2 ≤ (pysplit text).countP (fun w => isMonetary w)) :
    ∃ pre mid post a b, pysplit text = pre ++ [a] ++ mid ++ [b] ++ post ∧
      isMonetary a = true ∧ isMonetary b = true ∧
      (∀ w ∈ mid, isMonetary w = false) ∧ (∀ w ∈ post, isMonetary w = false) ∧
      find_last_two_numbers text =
        ([extract_amount a, extract_amount b], joinSep ' ' (pre ++ mid ++ post)) :=
  c4_characterization text h

/-- Claim C4, witness: the characterization applied to a token stream with a
trailing non-monetary token and an interior monetary pair. -/
theorem c4_characterization_claim_witness :
    2 ≤ (pysplit (lit "A 1.00 B 2.00 C")).countP (fun w => isMonetary w) ∧
    ∃ pre mid post a b, pysplit (lit "A 1.00 B 2.00 C") = pre ++ [a] ++ mid ++ [b] ++ post ∧
      isMonetary a = true ∧ isMonetary b = true ∧
      (∀ w ∈ mid, isMonetary w = false) ∧ (∀ w ∈ post, isMonetary w = false) ∧
      find_last_two_numbers (lit "A 1.00 B 2.00 C") =
        ([extract_amount a, extract_amount b], joinSep ' ' (pre ++ mid ++ post)) :=
  ⟨by decide, c4_characterization_claim (lit "A 1.00 B 2.00 C") (by decide)⟩

/-- Claim C5: every Transaction in the output of `parse_bank_statement` has
`some` amount and balance; the amount is non-positive when the details
classify as outbound and non-negative otherwise, and the balance is
non-negative (never sign-adjusted). -/
theorem c5_sign_invariant (text : Str) (t : Transaction)
    (ht : t ∈ parse_bank_statement text) :
    ∃ qa qb : ℚ, t.amount = some qa ∧ t.balance = some qb ∧
      ((determine_transaction_type t.details).2 = true → qa ≤ 0) ∧
      ((determine_transaction_type t.details).2 = false → 0 ≤ qa) ∧ 0 ≤ qb := by
  unfold parse_bank_statement at ht
  obtain ⟨l, -, hp⟩ := mem_parseLines _ t ht
  obtain ⟨qa, qb, h1, h2, h3, h4, h5⟩ := parse_fields _ t hp
  exact ⟨qa, qb, h1, h2, h4, h5, h3⟩

/-- Claim C5, witness: the sign invariant applied to the outbound
transaction parsed from a minimal one-section statement. -/
theorem c5_sign_invariant_witness :
    (⟨⟨2023, 6, 1, 10, 15⟩, lit "K PLUS", lit "โอนเงิน จาก ร้านค้า++", lit "โอนเงิน",
        lit "ร้านค้า", some (-5000), some 1000, exLine⟩ : Transaction)
      ∈ parse_bank_statement (lit "ยอดยกมา\n" ++ exLine) ∧
    ∃ qa qb : ℚ,
      (⟨⟨2023, 6, 1, 10, 15⟩, lit "K PLUS", lit "โอนเงิน จาก ร้านค้า++", lit "โอนเงิน",
          lit "ร้านค้า", some (-5000), some 1000, exLine⟩ : Transaction).amount = some qa ∧
      (⟨⟨2023, 6, 1, 10, 15⟩, lit "K PLUS", lit "โอนเงิน จาก ร้านค้า++", lit "โอนเงิน",
          lit "ร้านค้า", some (-5000), some 1000, exLine⟩ : Transaction).balance = some qb ∧
      ((determine_transaction_type (⟨⟨2023, 6, 1, 10, 15⟩, lit "K PLUS",
          lit "โอนเงิน จาก ร้านค้า++", lit "โอนเงิน", lit "ร้านค้า", some (-5000), some 1000,
          exLine⟩ : Transaction).details).2 = true → qa ≤ 0) ∧
      ((determine_transaction_type (⟨⟨2023, 6, 1, 10, 15⟩, lit "K PLUS",
          lit "โอนเงิน จาก ร้านค้า++", lit "โอนเงิน", lit "ร้านค้า", some (-5000), some 1000,
          exLine⟩ : Transaction).details).2 = false → 0 ≤ qa) ∧ 0 ≤ qb :=
  ⟨by decide, c5_sign_invariant (lit "ยอดยกมา\n" ++ exLine) _ (by decide)⟩

/-- Claim C6: whenever the details string contains an inbound keyword, the
classifier returns an inbound keyword contained in the string with the
outbound flag `false`, regardless of any outbound keywords also present —
all inbound keywords are tested before any outbound keyword. -/
theorem c6_inbound_precedence (text : Str)
    (h : ∃ kw, kw ∈ inbound_keywords ∧ containsSub text kw = true) :
    ∃ kw, kw ∈ inbound_keywords ∧ containsSub text kw = true ∧
      determine_transaction_type text = (kw, false) := by
  obtain ⟨kw0, hmem, hc⟩ := h
  have hkw1 : containsSub text (lit "รับโอนเงิน") = true := by
    have hcases : kw0 = lit "รับโอนเงิน" ∨ kw0 = lit "รับโอนเงินผ่าน QR" := by
      simpa [inbound_keywords] using hmem
    rcases hcases with rfl | rfl
    · exact hc
    · have hsplit : lit "รับโอนเงินผ่าน QR" = lit "รับโอนเงิน" ++ lit "ผ่าน QR" := by decide
      exact containsSub_of_append text _ _ (hsplit ▸ hc)
  refine ⟨lit "รับโอนเงิน", by decide, hkw1, ?_⟩
  unfold determine_transaction_type inbound_keywords firstContained
  rw [if_pos hkw1]

/-- Claim C6, witness: a details string containing both an inbound and an
outbound keyword classifies as inbound. -/
theorem c6_inbound_precedence_witness :
    ∃ kw, kw ∈ inbound_keywords ∧
      containsSub (lit "รับโอนเงินผ่าน QR ชำระเงิน") kw = true ∧
      determine_transaction_type (lit "รับโอนเงินผ่าน QR ชำระเงิน") = (kw, false) :=
  c6_inbound_precedence (lit "รับโอนเงินผ่าน QR ชำระเงิน")
    ⟨lit "รับโอนเงินผ่าน QR", by decide, by decide⟩

/-- Claim C7: a logical line whose post-timestamp remainder holds fewer than
two monetary-number tokens yields no Transaction, and a batch containing
such a line parses to exactly the transactions of the surrounding lines. -/
theorem c7_rejection_safety (pre post : List Str) (l : Str)
    (h : trailingMonetaryCount (strip l) < 2) :
    parseLines (pre ++ l :: post) = parseLines pre ++ parseLines post ∧
      parseLines [l] = [] := by
  have hnone : parse_transaction_line (strip l) = none := by
    unfold trailingMonetaryCount at h
    split at h
    case h_1 heq =>
      unfold parse_transaction_line
      rw [heq]
    case h_2 p heq =>
      unfold parse_transaction_line
      rw [heq]
      show (match strptime p with
        | none => none
        | some dt => parseAfterTS (strip l) dt (strip ((strip l).drop p.length))) = none
      split
      · rfl
      · unfold parseAfterTS
        rw [if_pos (by rw [fltn_length_count]; omega)]
  have h1 : parseLines [l] = [] := by
    simp only [parseLines]
    split
    · rfl
    · rw [hnone]
  refine ⟨?_, h1⟩
  rw [show pre ++ l :: post = pre ++ [l] ++ post by simp, parseLines_append, parseLines_append]
  rw [h1]
  simp

/-- Claim C7, witness: a batch of three logical lines whose middle line has
only one trailing monetary token parses to exactly the two outer
transactions, and the middle line alone parses to nothing. -/
theorem c7_rejection_safety_witness :
    trailingMonetaryCount (strip (lit "02-06-23 11:00 B 3.00")) < 2 ∧
    parseLines [lit "01-06-23 10:15 A 1.00 2.00", lit "02-06-23 11:00 B 3.00",
        lit "03-06-23 12:00 C 1.50 2.50"] =
      parseLines [lit "01-06-23 10:15 A 1.00 2.00"] ++
        parseLines [lit "03-06-23 12:00 C 1.50 2.50"] ∧
    parseLines [lit "02-06-23 11:00 B 3.00"] = [] :=
  ⟨by decide,
    (c7_rejection_safety [lit "01-06-23 10:15 A 1.00 2.00"]
      [lit "03-06-23 12:00 C 1.50 2.50"] (lit "02-06-23 11:00 B 3.00") (by decide)).1,
    (c7_rejection_safety [lit "01-06-23 10:15 A 1.00 2.00"]
      [lit "03-06-23 12:00 C 1.50 2.50"] (lit "02-06-23 11:00 B 3.00") (by decide)).2⟩

/-- Claim C8: commas are stripped from a captured token before conversion
(the comma-carrying token converts, the unstripped string does not), and the
conversion of a captured numeric token never fails — every element the scan
captures is `some` value — so no line is ever lost to a conversion failure
and the claimed failure-implies-rejection behaviour holds vacuously. -/
theorem c8_comma_stripping :
    extract_amount (lit "1,234,567.89") = some (mkRat 123456789 100) ∧
    parseFloat (lit "1,234,567.89") = none ∧
    (∀ (text : Str) (x : Option ℚ), x ∈ (find_last_two_numbers text).1 →
      ∃ q : ℚ, x = some q) := by
  refine ⟨by decide, by decide, fun text x hx => ?_⟩
  obtain ⟨q, hq, -⟩ := mem_fltn_nonneg text x hx
  exact ⟨q, hq⟩

/-- Claim C8, witness: a captured comma-bearing token in a concrete scan
converts to `some` value. -/
theorem c8_comma_stripping_witness :
    some (1000 : ℚ) ∈ (find_last_two_numbers (lit "x 1,000.00 2.00")).1 ∧
    ∃ q : ℚ, (some (1000 : ℚ) : Option ℚ) = some q :=
  ⟨by decide,
    c8_comma_stripping.2.2 (lit "x 1,000.00 2.00") (some (1000 : ℚ)) (by decide)⟩

/-- Claim C9: the classifier can never return the label `รับโอนเงินผ่าน QR`:
its first inbound keyword `รับโอนเงิน` is a prefix of it and is tested
first, so the second inbound keyword is unreachable as an output label, and
no outbound keyword nor the empty default equals it. -/
theorem c9_unreachable_label (text : Str) :
    decide ((determine_transaction_type text).1 = lit "รับโอนเงินผ่าน QR") = false := by
  rw [decide_eq_false_iff_not]
  unfold determine_transaction_type
  by_cases h1 : containsSub text (lit "รับโอนเงิน") = true
  · have hfc : firstContained text inbound_keywords = some (lit "รับโอนเงิน") := by
      unfold inbound_keywords firstContained
      rw [if_pos h1]
    rw [hfc]
    show ¬ (lit "รับโอนเงิน", false).1 = lit "รับโอนเงินผ่าน QR"
    decide
  · have h1f : containsSub text (lit "รับโอนเงิน") = false := by
      simpa using h1
    have h2 : containsSub text (lit "รับโอนเงินผ่าน QR") = false := by
      rw [Bool.eq_false_iff]
      intro hcon
      have hsplit : lit "รับโอนเงินผ่าน QR" = lit "รับโอนเงิน" ++ lit "ผ่าน QR" := by decide
      exact h1 (containsSub_of_append text _ _ (hsplit ▸ hcon))
    have hfc : firstContained text inbound_keywords = none := by
      unfold inbound_keywords
      simp only [firstContained]
      rw [if_neg (by rw [h1f]; simp), if_neg (by rw [h2]; simp)]
    rw [hfc]
    cases h3 : firstContained text outbound_keywords with
    | none =>
      show ¬ (([] : Str), false).1 = lit "รับโอนเงินผ่าน QR"
      decide
    | some kw =>
      show ¬ (kw, true).1 = lit "รับโอนเงินผ่าน QR"
      obtain ⟨hmem, -⟩ := firstContained_mem text _ kw h3
      have hcases : kw = lit "โอนเงิน" ∨ kw = lit "ชำระเงิน" ∨ kw = lit "ค่าธรรมเนียม" ∨
          kw = lit "หักบัญชี" := by
        simpa [outbound_keywords] using hmem
      rcases hcases with rfl | rfl | rfl | rfl <;> decide

/-- Claim C10: a logical line whose content is empty after removing the
timestamp and the two trailing monetary tokens (so no channel token remains)
is rejected — `parts[0]` raises `IndexError`, caught by the enclosing
handler — rather than yielding a Transaction with an empty channel. -/
theorem c10_empty_content (l p : Str) (dt : PDateTime)
    (hm : matchTS l = some p) (hst : strptime p = some dt)
    (hlen : 2 ≤ (find_last_two_numbers (strip (l.drop p.length))).1.length)
    (hsp : pysplit1 (find_last_two_numbers (strip (l.drop p.length))).2 = []) :
    parse_transaction_line l = none := by
  unfold parse_transaction_line
  rw [hm]
  show (match strptime p with
    | none => none
    | some dt' => parseAfterTS l dt' (strip (l.drop p.length))) = none
  rw [hst]
  show parseAfterTS l dt (strip (l.drop p.length)) = none
  unfold parseAfterTS
  rw [if_neg (by omega), if_pos (by rw [hsp]; rfl)]

/-- Claim C10, witness: the rejection applied to a line whose content is
exactly a timestamp and two monetary tokens. -/
theorem c10_empty_content_witness :
    parse_transaction_line (lit "01-06-23 10:15 1.00 2.00") = none :=
  c10_empty_content (lit "01-06-23 10:15 1.00 2.00") (lit "01-06-23 10:15")
    ⟨2023, 6, 1, 10, 15⟩ (by decide) (by decide) (by decide) (by decide)

end KBank
